import Mathlib
/-!
Verification of the dumb-pelican-client transfer tool.

Strings from the Rust source are modelled as `List Char`; floating-point
epoch timestamps (`f32`) are modelled as `ℚ`, since every property below
depends only on the order structure of the timestamps.  Filesystem,
environment, network and randomness effects are modelled as explicit
oracle parameters.
-/
/-- Convert a string literal to the `List Char` representation used throughout. -/
def str (s : String) : List Char := s.data
/-- Model of Rust `str::split_once(pat)`: split at the first occurrence of
`pat`, returning the parts strictly before and strictly after it, or `none`
when `pat` does not occur. -/
def splitOnce (pat : List Char) : List Char → Option (List Char × List Char)
  | [] => if pat.isPrefixOf [] then some ([], []) else none
  | c :: rest =>
    if pat.isPrefixOf (c :: rest) then some ([], (c :: rest).drop pat.length)
    else
      match splitOnce pat rest with
      | none => none
      | some (a, b) => some (c :: a, b)
/-- Model of Rust `str::split(c)`: split on every occurrence of the character
`c`, keeping empty segments (`"".split(c)` yields one empty segment). -/
def splitChar (c : Char) : List Char → List (List Char)
  | [] => [[]]
  | x :: rest =>
    if x = c then [] :: splitChar c rest
    else
      match splitChar c rest with
      | [] => [[x]]
      | h :: t => (x :: h) :: t
/-! ## Data model (src/credentials.rs, src/transfer.rs, src/pelican.rs, src/error.rs) -/
/-- `Verb` from src/transfer.rs. -/
inductive Verb where
  | Put
  | Get
deriving DecidableEq, Repr
/-- `Credential` from src/credentials.rs.  `expires_at` is `f32` in the source,
modelled as `ℚ` (only its ordering is ever used). -/
structure Credential where
  access_token : List Char
  token_type : List Char
  expires_in : Nat
  expires_at : ℚ
  scope : List (List Char)
deriving DecidableEq, Repr
/-- `Transfer` from src/transfer.rs. -/
structure Transfer where
  url : List Char
  filename : List Char
  mode : Verb
deriving DecidableEq, Repr
/-- `PelicanInfo` from src/pelican.rs.  The second field is named
`osdf_prefix` in the source. -/
structure PelicanInfo where
  origins : List (List Char)
  osdfPre : List Char
deriving DecidableEq, Repr
/-- `MyError` from src/error.rs.  The last three constructors model the
foreign boxed errors that `?` can propagate in the source
(`url::ParseError`, `std::io::Error`, `serde_json::Error`). -/
inductive MyError where
  | ArgumentError (details : String)
  | CredentialsError (details : String)
  | TransferError (details : String)
  | PelicanError (details : String)
  | GenericError (details : String)
  | UrlParseError
  | IoError
  | JsonError
deriving DecidableEq, Repr
/-! ## Credential selection (src/credentials.rs, `Credentials::get_correct_cred`) -/
/-- The verb-to-action table built in `get_correct_cred` (lines 79-82). -/
def verbScopeOptions : Verb → List (List Char)
  | Verb.Get => [ str "storage.read"]
  | Verb.Put => [ str "storage.create", str "storage.modify"]
/-- Inner loop of `get_correct_cred` (lines 88-97): scan one credential's
scope entries.  `Sum.inr c` models the early `return Ok(cred)`; `Sum.inl e`
is the updated `expired_cred` state after the scan. -/
def scopeScan (opts : List (List Char)) (path : List Char) (now : ℚ) (cred : Credential) :
    List (List Char) → Option Credential → Option Credential ⊕ Credential
  | [], exp => Sum.inl exp
  | s :: rest, exp =>
    match splitOnce [':'] s with
    | some (pre, post) =>
      if opts.contains pre && List.isPrefixOf post path then
        if cred.expires_at ≤ now then scopeScan opts path now cred rest (some cred)
        else Sum.inr cred
      else scopeScan opts path now cred rest exp
    | none => scopeScan opts path now cred rest exp
/-- Outer loop of `get_correct_cred` (lines 87-105): scan the stored
credentials in order, then fall back to the last expired match or fail. -/
def credScan (opts : List (List Char)) (path : List Char) (now : ℚ) :
    List Credential → Option Credential → Except MyError Credential
  | [], none => .error (.CredentialsError "No matching credentials for url")
  | [], some c => .ok c
  | c :: rest, exp =>
    match scopeScan opts path now c c.scope exp with
    | Sum.inr found => .ok found
    | Sum.inl exp2 => credScan opts path now rest exp2
/-- `Credentials::get_correct_cred` (lines 71-106).  The credential store
`Credentials(Vec<Credential>)` is the list `store`; `now` is the system
clock value read at line 85. -/
def get_correct_cred (store : List Credential) (t : Transfer) (info : PelicanInfo)
    (now : ℚ) : Except MyError Credential :=
  match splitOnce info.osdfPre t.url with
  | none => .error (.CredentialsError "url does not match OSDF prefix")
  | some (_, path) => credScan (verbScopeOptions t.mode) path now store none
/-! ## Spec-side predicates for credential selection -/
/-- The text strictly after the first `:` of a scope entry (its path part). -/
def scopePathPart (s : List Char) : List Char := (s.dropWhile (· != ':')).drop 1
/-- The text strictly before the first `:` of a scope entry (its action). -/
def scopeAction (s : List Char) : List Char := s.takeWhile (· != ':')
/-- A scope entry matches a request: it contains a `:`, its action is in the
verb's action set, and its path part is a plain prefix of the request path. -/
def scopeEntryMatches (opts : List (List Char)) (path s : List Char) : Bool :=
  decide (':' ∈ s) && opts.contains (scopeAction s) && List.isPrefixOf (scopePathPart s) path
/-- A credential qualifies: it is unexpired and one of its scopes matches. -/
def credQualifies (opts : List (List Char)) (path : List Char) (now : ℚ)
    (c : Credential) : Bool :=
  decide (now < c.expires_at) && c.scope.any (scopeEntryMatches opts path)
/-- A credential is an expired match: expired, but one of its scopes matches. -/
def credExpiredMatch (opts : List (List Char)) (path : List Char) (now : ℚ)
    (c : Credential) : Bool :=
  decide (c.expires_at ≤ now) && c.scope.any (scopeEntryMatches opts path)
/-! ## Discovery header parsing (src/pelican.rs) -/
/-- Loop body of `handle_link_header` (lines 10-30): for each comma segment,
take the text after the first `<`, then before the first `>`, pushing onto
the accumulator; any missing delimiter aborts with a parse error. -/
def linkLoop : List (List Char) → List (List Char) → Except MyError (List (List Char))
  | [], acc => .ok acc
  | line :: rest, acc =>
    match splitOnce ['<'] line with
    | none => .error (.PelicanError "Error parsing link header")
    | some (_, p1) =>
      match splitOnce ['>'] p1 with
      | none => .error (.PelicanError "Error parsing link header")
      | some (url, _) => linkLoop rest (acc ++ [url])
/-- `handle_link_header` (src/pelican.rs lines 9-32). -/
def handle_link_header (header : List Char) : Except MyError (List (List Char)) :=
  linkLoop (splitChar ',' header) []
/-- `handle_namespace_header` (src/pelican.rs lines 34-54): the part before
the first comma, then the part after the first `=` within it. -/
def handle_namespace_header (header : List Char) : Except MyError (List Char) :=
  match splitOnce [','] header with
  | none => .error (.PelicanError "Error parsing x-pelican-namespace header")
  | some (beforeComma, _) =>
    match splitOnce ['='] beforeComma with
    | none => .error (.PelicanError "Error parsing x-pelican-namespace header")
    | some (_, afterEq) => .ok afterEq
/-- `OSDF_URL_PREFIX` (src/pelican.rs line 56). -/
def OSDF_URL_PRE : List Char := str "osdf://"
/-- Headers of the director response used by `PelicanInfo::from_url`
(lines 113-130): the `link` and `x-pelican-namespace` header values, when
present.  The HTTP call, its memoization and the status-`>= 400` abort in
`get_director_info` are external effects; the response reaching `from_url`
is modelled as this record. -/
structure DirectorInfo where
  linkHdr : Option (List Char)
  nsHdr : Option (List Char)
deriving DecidableEq, Repr
/-- The federation-scheme check of `PelicanInfo::from_url` (lines 102-109):
the discovery path is what follows the first occurrence of `osdf://`. -/
def osdfPath (url : List Char) : Except MyError (List Char) :=
  match splitOnce OSDF_URL_PRE url with
  | none => .error (.PelicanError "url is not an OSDF url")
  | some (_, s2) => .ok s2
/-- Rest of `PelicanInfo::from_url` (lines 111-137) after the path is known:
parse both headers of the director response and assemble the `PelicanInfo`. -/
def fromUrlWithPath (path : List Char) (director : List Char → DirectorInfo) :
    Except MyError PelicanInfo :=
  let dinfo := director path
  match dinfo.linkHdr with
  | none => .error (.PelicanError "No link header when locating origins")
  | some links =>
    match handle_link_header links with
    | .error e => .error e
    | .ok origins =>
      match dinfo.nsHdr with
      | none => .error (.PelicanError "No link header when locating origins")
      | some parts =>
        match handle_namespace_header parts with
        | .error e => .error e
        | .ok ns => .ok ⟨origins, OSDF_URL_PRE ++ ns⟩
/-- `PelicanInfo::from_url` (src/pelican.rs lines 101-137), with the director
response supplied by the oracle `director`. -/
def from_url (url : List Char) (director : List Char → DirectorInfo) :
    Except MyError PelicanInfo :=
  match osdfPath url with
  | .error e => .error e
  | .ok path => fromUrlWithPath path director
/-- `PelicanInfo::choose_origin` (src/pelican.rs lines 143-151).  The uniform
random draw of `SliceRandom::choose` is modelled by the external index
`pick`, reduced modulo the number of origins; an empty origin list fails. -/
def choose_origin (info : PelicanInfo) (pick : Nat) : Except MyError (List Char) :=
  match info.origins with
  | [] => .error (.PelicanError "No origins available")
  | x :: xs => .ok (List.getD (x :: xs) (pick % (xs.length + 1)) x)
/-! ## Spec-side view of the header grammar -/
/-- The text strictly after the first `<` of a segment. -/
def afterLt (seg : List Char) : List Char := (seg.dropWhile (· != '<')).drop 1
/-- A Link-header segment has both delimiters: a `<`, and a `>` after it. -/
def segHasDelims (seg : List Char) : Bool :=
  decide ('<' ∈ seg) && decide ('>' ∈ afterLt seg)
/-- The URL of a Link-header segment: the text between the first `<` and the
following `>`. -/
def segUrl (seg : List Char) : List Char := (afterLt seg).takeWhile (· != '>')
/-! ## URL rewriting and transfer execution (src/transfer.rs) -/
/-- Modelled from the spec: the external `url` crate's `Url::parse` followed
by `Url::join`, which the source calls in `Transfer::get_origin_url` and
which the spec describes as standard URL-join semantics (RFC 3986 reference
resolution: an absolute-path reference replaces the base path; a relative
reference replaces the last base path segment; a trailing slash on the base
must not produce a double slash or drop a segment).  `none` models a
`Url::parse` failure (no scheme separator in the base). -/
def urlJoin (base ref : List Char) : Option (List Char) :=
  match splitOnce (str "://") base with
  | none => none
  | some (scheme, rest) =>
    let auth := rest.takeWhile (· != '/')
    let basePath := rest.dropWhile (· != '/')
    match ref with
    | '/' :: r2 => some (scheme ++ str "://" ++ auth ++ ('/' :: r2))
    | _ =>
      let dir := (basePath.reverse.dropWhile (· != '/')).reverse
      let dir2 := if dir = [] then ['/'] else dir
      some (scheme ++ str "://" ++ auth ++ dir2 ++ ref)
/-- `Transfer::get_origin_url` (src/transfer.rs lines 30-39): pick an origin,
split the request URL on the namespace value (field `osdf_prefix`), and join
the chosen origin with the part after it. -/
def get_origin_url (t : Transfer) (info : PelicanInfo) (pick : Nat) :
    Except MyError (List Char) :=
  match choose_origin info pick with
  | .error e => .error e
  | .ok origin_url =>
    match splitOnce info.osdfPre t.url with
    | some (_, suffix) =>
      match urlJoin origin_url suffix with
      | some u => .ok u
      | none => .error .UrlParseError
    | none => .error (.TransferError "url does not match OSDF prefix")
/-- A local-file side effect performed by `Transfer::execute`. -/
inductive FileEvent where
  | create (path : List Char)
  | openRead (path : List Char)
  | write (path : List Char) (data : List Char)
deriving DecidableEq, Repr
/-- An HTTP response as seen by `Transfer::execute`. -/
structure HttpResp where
  status : Nat
  body : List Char
deriving DecidableEq, Repr
/-- External world of `Transfer::execute`: the blocking HTTP client and the
local filesystem.  `createRes` is the outcome of `File::create`; `openRes`
is `File::open` plus the content that would be streamed as a PUT body. -/
structure World where
  send : Verb → List Char → HttpResp
  createRes : List Char → Bool
  openRes : List Char → Except Unit (List Char)
/-- `reqwest::StatusCode::is_success`: 2xx. -/
def statusSuccess (n : Nat) : Bool := decide (200 ≤ n) && decide (n ≤ 299)
/-- `Transfer::execute` (src/transfer.rs lines 41-89), returning the result
together with the ordered list of local-file side effects it performed.
Error messages built with `format!` in the source are modelled by fixed
message prefixes. -/
def execute (t : Transfer) (store : List Credential) (info : PelicanInfo)
    (now : ℚ) (pick : Nat) (w : World) : Except MyError Unit × List FileEvent :=
  match get_correct_cred store t info now with
  | .error e => (.error e, [])
  | .ok _cred =>
    match get_origin_url t info pick with
    | .error e => (.error e, [])
    | .ok final_url =>
      match t.mode with
      | Verb.Get =>
        if w.createRes t.filename then
          let resp := w.send Verb.Get final_url
          if statusSuccess resp.status then
            (.ok (), [FileEvent.create t.filename, FileEvent.write t.filename resp.body])
          else
            (.error (.TransferError "Error getting file"), [FileEvent.create t.filename])
        else (.error .IoError, [FileEvent.create t.filename])
      | Verb.Put =>
        match w.openRes t.filename with
        | .error _ => (.error .IoError, [FileEvent.openRead t.filename])
        | .ok _content =>
          let resp := w.send Verb.Put final_url
          if statusSuccess resp.status then (.ok (), [FileEvent.openRead t.filename])
          else
            (.error (.TransferError "Error transferring file"), [FileEvent.openRead t.filename])
/-! ## Credential loading (src/credentials.rs, `get_cred_dir` / `from_condor`) -/
/-- A directory entry as used by `get_cred_dir`. -/
structure DirEntry where
  fileName : List Char
  path : List Char
deriving DecidableEq, Repr
/-- External world of startup credential loading: the `_CONDOR_CREDS`
environment variable, the directory listing (whose entries can individually
fail, like `std::fs::ReadDir` items), file reading and JSON parsing. -/
structure FsWorld where
  condorCreds : Option (List Char)
  readDir : List Char → Except Unit (List (Except Unit DirEntry))
  readToString : List Char → Except Unit (List Char)
  parseCredential : List Char → Except Unit Credential
/-- Entry loop of `get_cred_dir` (src/credentials.rs lines 22-33): collect
paths of `.use` files, failing on a broken entry. -/
def entriesLoop : List (Except Unit DirEntry) → List (List Char) →
    Except MyError (List (List Char))
  | [], acc => .ok acc
  | .error _ :: _, _ => .error (.CredentialsError "Error reading _CONDOR_CREDS dir")
  | .ok e :: rest, acc =>
    if List.isSuffixOf (str ".use") e.fileName then entriesLoop rest (acc ++ [e.path])
    else entriesLoop rest acc
/-- `get_cred_dir` (src/credentials.rs lines 10-41).  Note: when reading the
directory itself fails, the source prints to stderr and returns `Ok` with
the still-empty list (lines 35-37). -/
def get_cred_dir (w : FsWorld) : Except MyError (List (List Char)) :=
  match w.condorCreds with
  | none => .error (.CredentialsError "_CONDOR_CREDS env variable not set")
  | some dirPath =>
    match w.readDir dirPath with
    | .error _ => .ok []
    | .ok entries => entriesLoop entries []
/-- File loop of `Credentials::from_condor` (src/credentials.rs lines 61-67):
read and parse each credential file, propagating the first failure. -/
def filesLoop (w : FsWorld) : List (List Char) → List Credential →
    Except MyError (List Credential)
  | [], acc => .ok acc
  | f :: rest, acc =>
    match w.readToString f with
    | .error _ => .error .IoError
    | .ok json =>
      match w.parseCredential json with
      | .error _ => .error .JsonError
      | .ok c => filesLoop w rest (acc ++ [c])
/-- `Credentials::from_condor` (src/credentials.rs lines 59-69). -/
def from_condor (w : FsWorld) : Except MyError (List Credential) :=
  match get_cred_dir w with
  | .error e => .error e
  | .ok files => filesLoop w files []
/-- A credential file loads cleanly: it can be read and its JSON parses. -/
def fileLoadsOk (w : FsWorld) (f : List Char) : Bool :=
  match w.readToString f with
  | .error _ => false
  | .ok json => (w.parseCredential json).isOk
/-- The `.use` paths among a list of intact directory entries. -/
def usePaths (entries : List (Except Unit DirEntry)) : List (List Char) :=
  ((entries.filterMap Except.toOption).filter
    (fun e => List.isSuffixOf (str ".use") e.fileName)).map DirEntry.path
/-! ## Supporting lemmas -/

/-! ## Spec-side auxiliary definitions and sample values -/

/-- Remove the scope entries that contain no `:` from a credential. -/
def stripMalformed (c : Credential) : Credential :=
  { access_token := c.access_token, token_type := c.token_type,
    expires_in := c.expires_in, expires_at := c.expires_at,
    scope := c.scope.filter (fun s => decide (':' ∈ s)) }

/-- A valid read-scoped credential, expiring at time 100. -/
def credR1 : Credential :=
  ⟨ str "token1", str "bearer", 3600, 100, [ str "storage.read:/read/scope"]⟩

/-- A second valid read-scoped credential, expiring at time 100. -/
def credR2 : Credential :=
  ⟨ str "token2", str "bearer", 3600, 100, [ str "storage.read:/read/scope"]⟩

/-- An expired read-scoped credential (expired at time 10). -/
def credE1 : Credential :=
  ⟨ str "old1", str "bearer", 3600, 10, [ str "storage.read:/read/scope"]⟩

/-- A second expired read-scoped credential (expired at time 10). -/
def credE2 : Credential :=
  ⟨ str "old2", str "bearer", 3600, 10, [ str "storage.read:/read/scope"]⟩

/-- A sample GET transfer request under the namespace `url://ns`. -/
def sampleTransfer : Transfer :=
  ⟨ str "url://ns/read/scope/file.bin", str "f", Verb.Get⟩

/-- A sample resolved namespace with one origin. -/
def sampleInfo : PelicanInfo := ⟨[ str "http://o"], str "url://ns"⟩

/-- A director oracle returning fixed well-formed headers. -/
def sampleDirector : List Char → DirectorInfo :=
  fun _ => ⟨some ( str "<http://a>; rel=x, <http://b>"), some ( str "namespace=/p,foo=bar")⟩

/-- A filesystem world whose directory listing itself fails. -/
def badDirWorld : FsWorld :=
  ⟨some ( str "d"), fun _ => .error (), fun _ => .error (), fun _ => .error ()⟩

/-- A filesystem world with the `_CONDOR_CREDS` variable unset. -/
def noEnvWorld : FsWorld :=
  ⟨none, fun _ => .error (), fun _ => .error (), fun _ => .error ()⟩

/-- A benign transfer world: every request succeeds with an empty body. -/
def benignWorld : World :=
  ⟨fun _ _ => ⟨200, []⟩, fun _ => true, fun _ => .ok []⟩

/-! ## Theorems -/

theorem splitChar_ne_nil (c : Char) (s : List Char) : splitChar c s ≠ [] := by
  cases s with
  | nil => simp [splitChar]
  | cons x rest =>
    by_cases h : x = c
    · simp [splitChar, h]
    · simp only [splitChar, if_neg h]
      cases splitChar c rest <;> simp
theorem isPrefixOf_iff {l₁ l₂ : List Char} : l₁.isPrefixOf l₂ = true ↔ l₁ <+: l₂ := by
  induction l₁ generalizing l₂ with
  | nil => simp
  | cons a t ih =>
    cases l₂ with
    | nil => simp [List.isPrefixOf]
    | cons b t2 =>
      simp [List.isPrefixOf_cons₂, ih, List.cons_prefix_cons, And.comm]
theorem splitOnce_eq_none_iff (pat s : List Char) :
    splitOnce pat s = none ↔ ¬ pat <:+: s := by
  induction s with
  | nil =>
    by_cases h : pat.isPrefixOf ([] : List Char) = true
    · have hpat : pat = [] := by
        cases pat with
        | nil => rfl
        | cons x xs => simp [List.isPrefixOf] at h
      simp [splitOnce, h, hpat]
    · have hpat : pat ≠ [] := by
        intro hh; subst hh; simp [List.isPrefixOf] at h
      simp [splitOnce, h, hpat]
  | cons c rest ih =>
    by_cases h : pat.isPrefixOf (c :: rest) = true
    · rw [splitOnce, if_pos h]
      apply iff_of_false (by simp)
      intro hni
      exact hni (isPrefixOf_iff.mp h).isInfix
    · simp only [splitOnce, if_neg h]
      rw [List.infix_cons_iff]
      constructor
      · intro hn
        rcases hsplit : splitOnce pat rest with _ | ⟨a, b⟩
        · intro hor
          rcases hor with hpre | hinf
          · exact h (isPrefixOf_iff.mpr hpre)
          · exact (ih.mp hsplit) hinf
        · rw [hsplit] at hn; simp at hn
      · intro hnor
        have : splitOnce pat rest = none := ih.mpr (fun hinf => hnor (Or.inr hinf))
        simp [this]
theorem splitOnce_here (pat rest : List Char) :
    splitOnce pat (pat ++ rest) = some ([], rest) := by
  have hpre : pat.isPrefixOf (pat ++ rest) = true :=
    isPrefixOf_iff.mpr (List.prefix_append pat rest)
  cases hp : pat ++ rest with
  | nil =>
    have h1 : pat = [] := by
      cases pat with
      | nil => rfl
      | cons x xs => simp at hp
    subst h1
    simp only [List.nil_append] at hp
    subst hp
    simp [splitOnce]
  | cons c t =>
    rw [hp] at hpre
    simp only [splitOnce, if_pos hpre]
    rw [← hp]
    simp [List.drop_left]
theorem splitOnce_eq_some (pat s a b : List Char)
    (h : splitOnce pat s = some (a, b)) : s = a ++ pat ++ b := by
  induction s generalizing a b with
  | nil =>
    by_cases hp : pat.isPrefixOf ([] : List Char) = true
    · have hpat : pat = [] := by
        cases pat with
        | nil => rfl
        | cons x xs => simp [List.isPrefixOf] at hp
      subst hpat
      simp [splitOnce] at h
      rcases h with ⟨rfl, rfl⟩
      simp
    · simp [splitOnce, hp] at h
  | cons c rest ih =>
    by_cases hp : pat.isPrefixOf (c :: rest) = true
    · simp only [splitOnce, if_pos hp, Option.some.injEq, Prod.mk.injEq] at h
      obtain ⟨h1, h2⟩ := h
      subst h1
      subst h2
      obtain ⟨t, ht⟩ := isPrefixOf_iff.mp hp
      rw [← ht]
      simp [List.drop_left]
    · simp only [splitOnce, if_neg hp] at h
      rcases hsplit : splitOnce pat rest with _ | ⟨a2, b2⟩ <;> rw [hsplit] at h
      · simp at h
      · simp only [Option.some.injEq, Prod.mk.injEq] at h
        have h3 := ih a2 b2 hsplit
        rw [← h.1, ← h.2, h3]
        simp
theorem splitOnce_single (c : Char) (s : List Char) :
    splitOnce [c] s =
      if c ∈ s then
        some (s.takeWhile (· != c), (s.dropWhile (· != c)).drop 1)
      else none := by
  induction s with
  | nil => simp [splitOnce, List.isPrefixOf]
  | cons x rest ih =>
    by_cases hx : x = c
    · subst hx
      have hpre : List.isPrefixOf [x] (x :: rest) = true := by
        simp [List.isPrefixOf]
      simp [splitOnce, hpre, List.takeWhile, List.dropWhile]
    · have hpre : List.isPrefixOf [c] (x :: rest) = false := by
        simp [List.isPrefixOf]
        exact fun hh => absurd hh.symm hx
      have hbne : (x != c) = true := bne_iff_ne.mpr hx
      simp only [splitOnce, hpre, Bool.false_eq_true, if_false, ih]
      by_cases hmem : c ∈ rest
      · have hmem2 : c ∈ x :: rest := List.mem_cons_of_mem x hmem
        simp [hmem, hmem2, List.takeWhile, List.dropWhile, hbne]
      · have hcx : ¬ c = x := fun hh => hx hh.symm
        have hmem2 : c ∉ x :: rest := by simp [hmem, hcx]
        simp [hmem, hmem2]
theorem scopeEntryMatches_of_split_some (opts : List (List Char)) (path s pre post : List Char)
    (hsp : splitOnce [':'] s = some (pre, post)) :
    scopeEntryMatches opts path s = (opts.contains pre && List.isPrefixOf post path) := by
  rw [splitOnce_single] at hsp
  by_cases hmem : ':' ∈ s
  · rw [if_pos hmem] at hsp
    simp only [Option.some.injEq, Prod.mk.injEq] at hsp
    rw [scopeEntryMatches, scopeAction, scopePathPart, hsp.1, hsp.2]
    simp [hmem]
  · rw [if_neg hmem] at hsp
    simp at hsp
theorem scopeEntryMatches_of_split_none (opts : List (List Char)) (path s : List Char)
    (hsp : splitOnce [':'] s = none) : scopeEntryMatches opts path s = false := by
  rw [splitOnce_single] at hsp
  by_cases hmem : ':' ∈ s
  · rw [if_pos hmem] at hsp
    simp at hsp
  · simp [scopeEntryMatches, hmem]
theorem scopeScan_eq (opts : List (List Char)) (path : List Char) (now : ℚ)
    (cred : Credential) (scopes : List (List Char)) (exp : Option Credential) :
    scopeScan opts path now cred scopes exp =
      if scopes.any (scopeEntryMatches opts path) then
        (if cred.expires_at ≤ now then Sum.inl (some cred) else Sum.inr cred)
      else Sum.inl exp := by
  induction scopes generalizing exp with
  | nil => simp [scopeScan]
  | cons s rest ih =>
    rw [List.any_cons]
    by_cases hm : scopeEntryMatches opts path s = true
    · rcases hsp : splitOnce [':'] s with _ | ⟨pre, post⟩
      · rw [scopeEntryMatches_of_split_none opts path s hsp] at hm
        simp at hm
      · have hcond : (opts.contains pre && List.isPrefixOf post path) = true := by
          rw [← scopeEntryMatches_of_split_some opts path s pre post hsp]
          exact hm
        by_cases hexp : cred.expires_at ≤ now
        · simp only [scopeScan, hsp, hcond]
          rw [if_pos trivial, if_pos hexp, ih]
          simp [hm, hexp]
        · simp only [scopeScan, hsp, hcond]
          rw [if_pos trivial, if_neg hexp]
          simp [hm, hexp]
    · have hstep : scopeScan opts path now cred (s :: rest) exp =
          scopeScan opts path now cred rest exp := by
        rcases hsp : splitOnce [':'] s with _ | ⟨pre, post⟩
        · simp only [scopeScan, hsp]
        · have hcond : (opts.contains pre && List.isPrefixOf post path) = false := by
            rw [← scopeEntryMatches_of_split_some opts path s pre post hsp]
            simpa using hm
          simp only [scopeScan, hsp, hcond, Bool.false_eq_true, if_false]
      rw [hstep, ih]
      simp [hm]
theorem credScan_never_noprefix_error (opts : List (List Char)) (path : List Char)
    (now : ℚ) (store : List Credential) (exp : Option Credential) :
    credScan opts path now store exp ≠
      .error (.CredentialsError "url does not match OSDF prefix") := by
  induction store generalizing exp with
  | nil =>
    cases exp with
    | none => simp [credScan]
    | some c => simp [credScan]
  | cons c rest ih =>
    rw [credScan]
    cases scopeScan opts path now c c.scope exp with
    | inl exp2 => exact ih exp2
    | inr found => simp
theorem credScan_find (opts : List (List Char)) (path : List Char) (now : ℚ)
    (store : List Credential) (exp : Option Credential) (c : Credential)
    (hfind : store.find? (credQualifies opts path now) = some c) :
    credScan opts path now store exp = .ok c := by
  induction store generalizing exp with
  | nil => simp at hfind
  | cons d rest ih =>
    by_cases hq : credQualifies opts path now d = true
    · rw [List.find?_cons_of_pos _ hq] at hfind
      obtain rfl : d = c := by simpa using hfind
      have hq2 := hq
      rw [credQualifies, Bool.and_eq_true] at hq2
      have hany : d.scope.any (scopeEntryMatches opts path) = true := hq2.2
      have hval : ¬ d.expires_at ≤ now := not_le.mpr (of_decide_eq_true hq2.1)
      rw [credScan, scopeScan_eq]
      simp [hany, hval]
    · rw [List.find?_cons_of_neg _ hq] at hfind
      rw [credScan, scopeScan_eq]
      by_cases hany : d.scope.any (scopeEntryMatches opts path) = true
      · have hexp : d.expires_at ≤ now := by
          by_contra hc
          exact hq (by simp [credQualifies, not_le.mp hc, hany])
        simp only [hany, if_true, if_pos hexp]
        exact ih _ hfind
      · simp only [hany]
        simp only [Bool.false_eq_true, if_false]
        exact ih _ hfind
theorem credScan_all_unqualified (opts : List (List Char)) (path : List Char) (now : ℚ)
    (store : List Credential) (exp : Option Credential)
    (hnone : ∀ d ∈ store, credQualifies opts path now d = false) :
    credScan opts path now store exp =
      match store.foldl
          (fun acc d => if credExpiredMatch opts path now d then some d else acc) exp with
      | some c => .ok c
      | none => .error (.CredentialsError "No matching credentials for url") := by
  induction store generalizing exp with
  | nil =>
    cases exp with
    | none => simp [credScan]
    | some c => simp [credScan]
  | cons d rest ih =>
    have hd := hnone d (List.mem_cons_self d rest)
    rw [credScan, scopeScan_eq, List.foldl_cons]
    by_cases hany : d.scope.any (scopeEntryMatches opts path) = true
    · have hexp : d.expires_at ≤ now := by
        by_contra hc
        have hcq : credQualifies opts path now d = true := by
          rw [credQualifies, Bool.and_eq_true]
          exact ⟨decide_eq_true (not_le.mp hc), hany⟩
        rw [hcq] at hd
        cases hd
      have hem : credExpiredMatch opts path now d = true := by
        rw [credExpiredMatch, Bool.and_eq_true]
        exact ⟨decide_eq_true hexp, hany⟩
      rw [if_pos hany, if_pos hexp, if_pos hem]
      exact ih _ (fun x hx => hnone x (List.mem_cons_of_mem d hx))
    · have hany2 : d.scope.any (scopeEntryMatches opts path) = false := by
        simpa using hany
      have hem : credExpiredMatch opts path now d = false := by
        rw [credExpiredMatch, hany2]
        simp
      rw [hany2]
      simp only [Bool.false_eq_true, if_false]
      rw [if_neg (by simp [hem])]
      exact ih _ (fun x hx => hnone x (List.mem_cons_of_mem d hx))
theorem linkLoop_eq (segs : List (List Char)) (acc : List (List Char)) :
    linkLoop segs acc =
      if segs.all segHasDelims then .ok (acc ++ segs.map segUrl)
      else .error (.PelicanError "Error parsing link header") := by
  induction segs generalizing acc with
  | nil => simp [linkLoop]
  | cons seg rest ih =>
    rw [List.all_cons]
    by_cases hlt : '<' ∈ seg
    · have hsp1 : splitOnce ['<'] seg = some (seg.takeWhile (· != '<'), afterLt seg) := by
        rw [splitOnce_single, if_pos hlt, afterLt]
      by_cases hgt : '>' ∈ afterLt seg
      · have hsp2 : splitOnce ['>'] (afterLt seg) =
            some (segUrl seg, ((afterLt seg).dropWhile (· != '>')).drop 1) := by
          rw [splitOnce_single, if_pos hgt, segUrl]
        have hdel : segHasDelims seg = true := by
          rw [segHasDelims, Bool.and_eq_true]
          exact ⟨decide_eq_true hlt, decide_eq_true hgt⟩
        rw [linkLoop, hsp1]
        dsimp only
        rw [hsp2]
        dsimp only
        rw [ih, hdel]
        by_cases hall : rest.all segHasDelims = true
        · simp [hall]
        · have : rest.all segHasDelims = false := by simpa using hall
          simp [this]
      · have hsp2 : splitOnce ['>'] (afterLt seg) = none := by
          rw [splitOnce_single, if_neg hgt]
        have hdel : segHasDelims seg = false := by
          rw [segHasDelims]
          simp [hgt]
        rw [linkLoop, hsp1]
        dsimp only
        rw [hsp2]
        dsimp only
        rw [hdel]
        simp
    · have hsp1 : splitOnce ['<'] seg = none := by
        rw [splitOnce_single, if_neg hlt]
      have hdel : segHasDelims seg = false := by
        rw [segHasDelims]
        simp [hlt]
      rw [linkLoop, hsp1]
      dsimp only
      rw [hdel]
      simp
theorem getLast?_cons_eq {α : Type} (a : α) (l : List α) :
    (a :: l).getLast? =
      match l.getLast? with
      | some c => some c
      | none => some a := by
  cases l with
  | nil => simp
  | cons b t =>
    rw [List.getLast?_cons_cons]
    rcases h : (b :: t).getLast? with _ | c
    · rw [List.getLast?_eq_none_iff] at h
      cases h
    · rfl
theorem foldl_update_eq_getLast? {α : Type} (p : α → Bool) (l : List α) (a : Option α) :
    l.foldl (fun acc d => if p d then some d else acc) a =
      match (l.filter p).getLast? with
      | some c => some c
      | none => a := by
  induction l generalizing a with
  | nil => simp
  | cons d rest ih =>
    rw [List.foldl_cons, ih, List.filter_cons]
    by_cases hp : p d = true
    · rw [if_pos hp, if_pos hp, getLast?_cons_eq]
      rcases (rest.filter p).getLast? with _ | c <;> rfl
    · have hp2 : p d = false := by simpa using hp
      rw [hp2]
      simp only [Bool.false_eq_true, if_false]
theorem entriesLoop_no_error (entries : List (Except Unit DirEntry))
    (acc : List (List Char)) (h : ∀ x ∈ entries, x ≠ .error ()) :
    entriesLoop entries acc = .ok (acc ++ usePaths entries) := by
  induction entries generalizing acc with
  | nil => simp [entriesLoop, usePaths]
  | cons x rest ih =>
    cases x with
    | error u =>
      exact absurd rfl (by cases u; exact h _ (List.mem_cons_self _ _))
    | ok e =>
      have hrest : ∀ x ∈ rest, x ≠ .error () :=
        fun x hx => h x (List.mem_cons_of_mem _ hx)
      by_cases hu : List.isSuffixOf (str ".use") e.fileName = true
      · rw [entriesLoop, if_pos hu, ih _ hrest]
        simp [usePaths, List.filterMap_cons, List.filter_cons, hu, Except.toOption]
      · have hu2 : List.isSuffixOf (str ".use") e.fileName = false := by
          simp only [Bool.not_eq_true] at hu
          exact hu
        rw [entriesLoop, if_neg (by simp [hu2]), ih _ hrest]
        simp [usePaths, List.filterMap_cons, List.filter_cons, hu2, Except.toOption]
theorem entriesLoop_error (entries : List (Except Unit DirEntry))
    (acc : List (List Char)) (h : .error () ∈ entries) :
    entriesLoop entries acc = .error (.CredentialsError "Error reading _CONDOR_CREDS dir") := by
  induction entries generalizing acc with
  | nil => simp at h
  | cons x rest ih =>
    cases x with
    | error u => cases u; rfl
    | ok e =>
      have hrest : Except.error () ∈ rest := by
        rcases List.mem_cons.mp h with h1 | h1
        · cases h1
        · exact h1
      by_cases hu : List.isSuffixOf (str ".use") e.fileName = true
      · rw [entriesLoop, if_pos hu, ih _ hrest]
      · rw [entriesLoop, if_neg (by simpa using hu), ih _ hrest]
theorem filesLoop_all_ok (w : FsWorld) (files : List (List Char))
    (acc : List Credential) (h : ∀ f ∈ files, fileLoadsOk w f = true) :
    ∃ creds, filesLoop w files acc = .ok (acc ++ creds) ∧ creds.length = files.length := by
  induction files generalizing acc with
  | nil => exact ⟨[], by simp [filesLoop], rfl⟩
  | cons f rest ih =>
    have hf := h f (List.mem_cons_self _ _)
    rw [fileLoadsOk] at hf
    rcases hr : w.readToString f with _ | json
    · rw [hr] at hf
      dsimp only at hf
      cases hf
    · rw [hr] at hf
      dsimp only at hf
      rcases hp : w.parseCredential json with _ | c
      · rw [hp] at hf; simp [Except.isOk, Except.toBool] at hf
      · obtain ⟨creds, hcreds, hlen⟩ := ih (acc ++ [c])
          (fun x hx => h x (List.mem_cons_of_mem _ hx))
        refine ⟨c :: creds, ?_, by simp [hlen]⟩
        rw [filesLoop, hr]
        dsimp only
        rw [hp]
        dsimp only
        rw [hcreds]
        simp
theorem filesLoop_fails (w : FsWorld) (files : List (List Char))
    (acc : List Credential) (f : List Char) (hf : f ∈ files)
    (hbad : fileLoadsOk w f = false) :
    filesLoop w files acc = .error .IoError ∨ filesLoop w files acc = .error .JsonError := by
  induction files generalizing acc with
  | nil => simp at hf
  | cons g rest ih =>
    rcases hr : w.readToString g with _ | json
    · left; rw [filesLoop, hr]
    · rcases hp : w.parseCredential json with _ | c
      · right; rw [filesLoop, hr]; dsimp only; rw [hp]
      · have hgf : g ≠ f := by
          intro hh
          subst hh
          rw [fileLoadsOk, hr] at hbad
          dsimp only at hbad
          rw [hp] at hbad
          simp [Except.isOk, Except.toBool] at hbad
        have hfrest : f ∈ rest := by
          rcases List.mem_cons.mp hf with h1 | h1
          · exact absurd h1.symm hgf
          · exact h1
        have := ih (acc ++ [c]) hfrest
        rw [filesLoop, hr]
        dsimp only
        rw [hp]
        dsimp only
        exact this

theorem handle_link_header_error_msg (h : List Char) (e : MyError)
    (he : handle_link_header h = .error e) :
    e = .PelicanError "Error parsing link header" := by
  rw [handle_link_header, linkLoop_eq] at he
  by_cases hall : (splitChar ',' h).all segHasDelims = true
  · rw [if_pos hall] at he
    cases he
  · rw [if_neg hall] at he
    injection he with hh
    exact hh.symm

theorem handle_namespace_header_error_msg (h : List Char) (e : MyError)
    (he : handle_namespace_header h = .error e) :
    e = .PelicanError "Error parsing x-pelican-namespace header" := by
  rw [handle_namespace_header] at he
  rcases h1 : splitOnce [','] h with _ | ⟨beforeComma, rest⟩ <;> rw [h1] at he
  · injection he with hh
    exact hh.symm
  · dsimp only at he
    rcases h2 : splitOnce ['='] beforeComma with _ | ⟨x, y⟩ <;> rw [h2] at he
    · injection he with hh
      exact hh.symm
    · dsimp only at he
      cases he

theorem fromUrlWithPath_ne_notosdf (path : List Char) (director : List Char → DirectorInfo) :
    fromUrlWithPath path director ≠ .error (.PelicanError "url is not an OSDF url") := by
  rw [fromUrlWithPath]
  rcases (director path).linkHdr with _ | links
  · dsimp only
    intro hc
    injection hc with hh
    exact absurd hh (by decide)
  · dsimp only
    rcases hl : handle_link_header links with e | origins
    · have he := handle_link_header_error_msg _ _ hl
      subst he
      dsimp only
      intro hc
      injection hc with hh
      exact absurd hh (by decide)
    · dsimp only
      rcases (director path).nsHdr with _ | parts
      · dsimp only
        intro hc
        injection hc with hh
        exact absurd hh (by decide)
      · dsimp only
        rcases hn : handle_namespace_header parts with e | ns
        · have he := handle_namespace_header_error_msg _ _ hn
          subst he
          dsimp only
          intro hc
          injection hc with hh
          exact absurd hh (by decide)
        · dsimp only
          intro hc
          cases hc

theorem takeWhile_no_slash (host : List Char) (hh : '/' ∉ host) :
    host.takeWhile (· != '/') = host ∧ host.dropWhile (· != '/') = [] := by
  induction host with
  | nil => simp
  | cons x rest ih =>
    have hx : x ≠ '/' := by
      intro h
      exact hh (by simp [h])
    have hrest : '/' ∉ rest := fun h => hh (List.mem_cons_of_mem _ h)
    obtain ⟨h1, h2⟩ := ih hrest
    constructor
    · rw [List.takeWhile_cons, if_pos (by simp [bne_iff_ne, hx]), h1]
    · rw [List.dropWhile_cons, if_pos (by simp [bne_iff_ne, hx]), h2]

theorem takeWhile_until_slash (host : List Char) (hh : '/' ∉ host) (t : List Char) :
    (host ++ '/' :: t).takeWhile (· != '/') = host ∧
      (host ++ '/' :: t).dropWhile (· != '/') = '/' :: t := by
  induction host with
  | nil => simp [List.takeWhile_cons, List.dropWhile_cons]
  | cons x rest ih =>
    have hx : x ≠ '/' := by
      intro h
      exact hh (by simp [h])
    have hrest : '/' ∉ rest := fun h => hh (List.mem_cons_of_mem _ h)
    obtain ⟨h1, h2⟩ := ih hrest
    constructor
    · rw [List.cons_append, List.takeWhile_cons, if_pos (by simp [bne_iff_ne, hx]), h1]
    · rw [List.cons_append, List.dropWhile_cons, if_pos (by simp [bne_iff_ne, hx]), h2]

theorem isPrefixOf_cons_false (a b : Char) (pa pb : List Char) (hab : a ≠ b) :
    List.isPrefixOf (a :: pa) (b :: pb) = false := by
  rw [List.isPrefixOf_cons₂]
  simp [hab]

theorem splitOnce_cons_of_not (pat : List Char) (c : Char) (s : List Char)
    (h : pat.isPrefixOf (c :: s) = false) :
    splitOnce pat (c :: s) =
      match splitOnce pat s with
      | none => none
      | some (a, b) => some (c :: a, b) := by
  rw [splitOnce, if_neg (by simp [h])]

theorem splitOnce_scheme_http (tail0 : List Char) :
    splitOnce ( str "://") ( str "http://" ++ tail0) = some ( str "http", tail0) := by
  have e1 : str "http://" ++ tail0 = 'h' :: 't' :: 't' :: 'p' :: ( str "://" ++ tail0) := rfl
  have e0 : str "://" = ':' :: '/' :: '/' :: [] := rfl
  rw [e1, e0]
  rw [splitOnce_cons_of_not _ _ _ (isPrefixOf_cons_false ':' 'h' _ _ (by decide))]
  rw [splitOnce_cons_of_not _ _ _ (isPrefixOf_cons_false ':' 't' _ _ (by decide))]
  rw [splitOnce_cons_of_not _ _ _ (isPrefixOf_cons_false ':' 't' _ _ (by decide))]
  rw [splitOnce_cons_of_not _ _ _ (isPrefixOf_cons_false ':' 'p' _ _ (by decide))]
  rw [splitOnce_here]
  rfl

theorem any_strip (opts : List (List Char)) (path : List Char) (l : List (List Char)) :
    (l.filter (fun s => decide (':' ∈ s))).any (scopeEntryMatches opts path) =
      l.any (scopeEntryMatches opts path) := by
  induction l with
  | nil => simp
  | cons s rest ih =>
    rw [List.filter_cons]
    by_cases hmem : ':' ∈ s
    · rw [if_pos (by simp [hmem]), List.any_cons, List.any_cons, ih]
    · have hsm : scopeEntryMatches opts path s = false := by
        rw [scopeEntryMatches]
        simp [hmem]
      rw [if_neg (by simp [hmem]), List.any_cons, hsm, ih]
      simp

theorem credScan_strip (opts : List (List Char)) (path : List Char) (now : ℚ)
    (store : List Credential) (exp : Option Credential) :
    Except.map stripMalformed (credScan opts path now store exp) =
      credScan opts path now (store.map stripMalformed) (exp.map stripMalformed) := by
  induction store generalizing exp with
  | nil =>
    cases exp with
    | none => rfl
    | some c => rfl
  | cons c rest ih =>
    rw [List.map_cons, credScan, credScan, scopeScan_eq, scopeScan_eq]
    have hany : (stripMalformed c).scope.any (scopeEntryMatches opts path) =
        c.scope.any (scopeEntryMatches opts path) := by
      rw [stripMalformed]
      exact any_strip opts path c.scope
    have hexp : (stripMalformed c).expires_at = c.expires_at := rfl
    rw [hany, hexp]
    by_cases ha : c.scope.any (scopeEntryMatches opts path) = true
    · rw [if_pos ha, if_pos ha]
      by_cases he : c.expires_at ≤ now
      · rw [if_pos he, if_pos he]
        dsimp only
        exact ih (some c)
      · rw [if_neg he, if_neg he]
        rfl
    · have ha2 : c.scope.any (scopeEntryMatches opts path) = false := by simpa using ha
      rw [ha2]
      simp only [Bool.false_eq_true, if_false]
      exact ih exp

/-! ## Claim theorems -/

/-- C1: for every credential store, verb and request path (the part of the
request URL after the namespace value), if some credential qualifies — a
scope entry splits at its first `:` into an action in the verb's action set
(Get: storage.read; Put: storage.create, storage.modify) and a plain string
prefix of the request path, and the credential's `expires_at` is strictly
greater than `now` — then `get_correct_cred` returns the first qualifying
credential in store order, and that credential satisfies the condition. -/
theorem claim1_select_first_valid (store : List Credential) (t : Transfer)
    (info : PelicanInfo) (now : ℚ) (a path : List Char) (c : Credential)
    (hsplit : splitOnce info.osdfPre t.url = some (a, path))
    (hfind : store.find? (credQualifies (verbScopeOptions t.mode) path now) = some c) :
    get_correct_cred store t info now = .ok c ∧
      credQualifies (verbScopeOptions t.mode) path now c = true := by
  constructor
  · rw [get_correct_cred, hsplit]
    exact credScan_find _ _ _ _ _ _ hfind
  · exact List.find?_some hfind

/-- Witness for C1: with an expired matching credential first and two valid
matching credentials after it, the first valid one (in store order) wins. -/
theorem claim1_witness :
    get_correct_cred [credE1, credR1, credR2] sampleTransfer sampleInfo 50 = .ok credR1 ∧
      credQualifies (verbScopeOptions sampleTransfer.mode)
        ( str "/read/scope/file.bin") 50 credR1 = true :=
  claim1_select_first_valid [credE1, credR1, credR2] sampleTransfer sampleInfo 50
    [] ( str "/read/scope/file.bin") credR1 (by decide) (by decide)

/-- C2: for every credential store, verb and request path, if no credential
has a non-expired matching scope (expired: `expires_at ≤ now`), then
`get_correct_cred` returns the last credential in store order with an
expired matching scope, and fails with the no-matching-credentials error
when no credential matches at all. -/
theorem claim2_expired_fallback (store : List Credential) (t : Transfer)
    (info : PelicanInfo) (now : ℚ) (a path : List Char)
    (hsplit : splitOnce info.osdfPre t.url = some (a, path))
    (hnone : ∀ d ∈ store, credQualifies (verbScopeOptions t.mode) path now d = false) :
    get_correct_cred store t info now =
      match (store.filter (credExpiredMatch (verbScopeOptions t.mode) path now)).getLast? with
      | some c => .ok c
      | none => .error (.CredentialsError "No matching credentials for url") := by
  rw [get_correct_cred, hsplit]
  dsimp only
  rw [credScan_all_unqualified _ _ _ _ _ hnone, foldl_update_eq_getLast?]
  rcases (store.filter (credExpiredMatch (verbScopeOptions t.mode) path now)).getLast?
    with _ | c <;> rfl

/-- Witness for C2: with two expired matching credentials and no valid one,
the second (last in store order) is returned. -/
theorem claim2_witness :
    get_correct_cred [credE1, credE2] sampleTransfer sampleInfo 50 = .ok credE2 := by
  have h := claim2_expired_fallback [credE1, credE2] sampleTransfer sampleInfo 50
    [] ( str "/read/scope/file.bin") (by decide) (by decide)
  rw [h]
  rfl

/-- C3 counterexample: the request URL `Xurl://ns/a` does not begin with the
namespace value `url://ns`, yet URL rewriting succeeds (joining the origin
with the part after the first embedded occurrence of the namespace value)
and credential selection does not fail with the no-prefix-match error (on an
empty store it reaches the no-matching-credentials error instead). -/
theorem claim3_counterexample :
    List.isPrefixOf ( str "url://ns") ( str "Xurl://ns/a") = false
    ∧ get_origin_url ⟨ str "Xurl://ns/a", str "f", Verb.Get⟩
        ⟨[ str "http://o"], str "url://ns"⟩ 0 = .ok ( str "http://o/a")
    ∧ get_correct_cred [] ⟨ str "Xurl://ns/a", str "f", Verb.Get⟩
        ⟨[ str "http://o"], str "url://ns"⟩ 0 =
        .error (.CredentialsError "No matching credentials for url") := by
  refine ⟨by decide, ?_, ?_⟩ <;> rfl

/-- C3 amended: credential selection and URL rewriting fail with the
no-prefix-match error exactly when the namespace value does not occur
anywhere as a substring of the request URL (for rewriting, provided the
origin list is non-empty, since emptiness fails earlier); the request path
used afterwards is the part of the URL after the first occurrence of the
namespace value — in particular, the remainder after stripping it when the
URL begins with it. -/
theorem claim3_amended (store : List Credential) (t : Transfer) (info : PelicanInfo)
    (now : ℚ) (pick : Nat) (hor : info.origins ≠ []) :
    ((get_correct_cred store t info now =
        .error (.CredentialsError "url does not match OSDF prefix")) ↔
      ¬ info.osdfPre <:+: t.url)
    ∧ ((get_origin_url t info pick =
        .error (.TransferError "url does not match OSDF prefix")) ↔
      ¬ info.osdfPre <:+: t.url)
    ∧ (∀ a rest, splitOnce info.osdfPre t.url = some (a, rest) →
        t.url = a ++ info.osdfPre ++ rest ∧
        get_correct_cred store t info now =
          credScan (verbScopeOptions t.mode) rest now store none) := by
  refine ⟨?_, ?_, ?_⟩
  · rcases hsp : splitOnce info.osdfPre t.url with _ | ⟨a, path⟩
    · rw [get_correct_cred, hsp]
      exact iff_of_true rfl ((splitOnce_eq_none_iff _ _).mp hsp)
    · rw [get_correct_cred, hsp]
      dsimp only
      apply iff_of_false (credScan_never_noprefix_error _ _ _ _ _)
      intro hni
      exact hni ⟨a, path, (splitOnce_eq_some _ _ _ _ hsp).symm⟩
  · rcases horigins : info.origins with _ | ⟨x, xs⟩
    · exact absurd horigins hor
    · rw [get_origin_url, choose_origin, horigins]
      dsimp only
      rcases hsp : splitOnce info.osdfPre t.url with _ | ⟨a, path⟩
      · exact iff_of_true rfl ((splitOnce_eq_none_iff _ _).mp hsp)
      · dsimp only
        apply iff_of_false
        · rcases urlJoin (List.getD (x :: xs) (pick % (xs.length + 1)) x) path with _ | u
          · intro hc
            dsimp only at hc
            injection hc with hh
            cases hh
          · intro hc
            dsimp only at hc
            injection hc
        · intro hni
          exact hni ⟨a, path, (splitOnce_eq_some _ _ _ _ hsp).symm⟩
  · intro a rest hsp
    refine ⟨(splitOnce_eq_some _ _ _ _ hsp).symm ▸ rfl, ?_⟩
    · rw [get_correct_cred, hsp]

/-- Witness for C3 amended: for the URL `url://ns/a` beginning with the
namespace value `url://ns`, selection scans the stripped path `/a`. -/
theorem claim3_witness :
    get_correct_cred [] ⟨ str "url://ns/a", str "f", Verb.Get⟩
        ⟨[ str "http://o"], str "url://ns"⟩ 0 =
      credScan (verbScopeOptions Verb.Get) ( str "/a") 0 [] none := by
  have h := (claim3_amended [] ⟨ str "url://ns/a", str "f", Verb.Get⟩
      ⟨[ str "http://o"], str "url://ns"⟩ 0 0 (by decide)).2.2
      [] ( str "/a") (by decide)
  exact h.2

/-- C4 counterexample: the URL `Xosdf://p` does not begin with `osdf://`,
yet origin resolution does not fail with the not-a-federation-URL error: it
proceeds with the part after the first embedded occurrence of `osdf://`. -/
theorem claim4_counterexample :
    List.isPrefixOf OSDF_URL_PRE ( str "Xosdf://p") = false
    ∧ from_url ( str "Xosdf://p") sampleDirector =
        .ok ⟨[ str "http://a", str "http://b"], str "osdf:///p"⟩ := by
  refine ⟨by decide, ?_⟩
  rfl

/-- C4 amended: `from_url` fails with the not-a-federation-URL error exactly
when `osdf://` does not occur anywhere as a substring of the URL; the
discovery path handed to the director is the part of the URL after the
first occurrence of `osdf://` — the remainder after the prefix when the URL
begins with it. -/
theorem claim4_amended (url : List Char) (director : List Char → DirectorInfo) :
    ((from_url url director = .error (.PelicanError "url is not an OSDF url")) ↔
      ¬ OSDF_URL_PRE <:+: url)
    ∧ (∀ a rest, splitOnce OSDF_URL_PRE url = some (a, rest) →
        url = a ++ OSDF_URL_PRE ++ rest ∧ osdfPath url = .ok rest ∧
        from_url url director = fromUrlWithPath rest director) := by
  constructor
  · rcases hsp : splitOnce OSDF_URL_PRE url with _ | ⟨a, path⟩
    · rw [from_url, osdfPath, hsp]
      exact iff_of_true rfl ((splitOnce_eq_none_iff _ _).mp hsp)
    · rw [from_url, osdfPath, hsp]
      dsimp only
      apply iff_of_false (fromUrlWithPath_ne_notosdf _ _)
      intro hni
      exact hni ⟨a, path, (splitOnce_eq_some _ _ _ _ hsp).symm⟩
  · intro a rest hsp
    refine ⟨(splitOnce_eq_some _ _ _ _ hsp).symm ▸ rfl, ?_, ?_⟩
    · rw [osdfPath, hsp]
    · rw [from_url, osdfPath, hsp]

/-- Witness for C4 amended: for `osdf:///abc` the discovery path is `/abc`. -/
theorem claim4_witness :
    osdfPath ( str "osdf:///abc") = .ok ( str "/abc") := by
  have h := (claim4_amended ( str "osdf:///abc") sampleDirector).2
      [] ( str "/abc") (by decide)
  exact h.2.1

/-- C5: `handle_link_header` splits the header on commas and extracts from
each segment the URL between the segment's first `<` and the following `>`,
in order; it fails with the link-header parse error when any segment lacks
the delimiters.  In particular the spec's example yields exactly
`["http://a", "http://b"]`. -/
theorem claim5_link_header (header : List Char) :
    (handle_link_header header =
      if (splitChar ',' header).all segHasDelims then
        .ok ((splitChar ',' header).map segUrl)
      else .error (.PelicanError "Error parsing link header"))
    ∧ handle_link_header ( str "<http://a>; rel=\"x\", <http://b>") =
        .ok [ str "http://a", str "http://b"] := by
  constructor
  · rw [handle_link_header, linkLoop_eq]
    rcases (splitChar ',' header).all segHasDelims with _ | _ <;> rfl
  · rfl

/-- C6: `handle_namespace_header` takes the substring before the first
comma, then the substring after the first `=` within it, failing with the
namespace-header parse error when either delimiter is missing.  In
particular `namespace=/ns/path,foo=bar` yields `/ns/path`. -/
theorem claim6_namespace_header (header : List Char) :
    (handle_namespace_header header =
      if ',' ∈ header then
        (if '=' ∈ header.takeWhile (· != ',') then
          .ok (((header.takeWhile (· != ',')).dropWhile (· != '=')).drop 1)
        else .error (.PelicanError "Error parsing x-pelican-namespace header"))
      else .error (.PelicanError "Error parsing x-pelican-namespace header"))
    ∧ handle_namespace_header ( str "namespace=/ns/path,foo=bar") =
        .ok ( str "/ns/path") := by
  constructor
  · rw [handle_namespace_header, splitOnce_single]
    by_cases hc : ',' ∈ header
    · rw [if_pos hc, if_pos hc]
      dsimp only
      rw [splitOnce_single]
      by_cases he : '=' ∈ header.takeWhile (· != ',')
      · rw [if_pos he, if_pos he]
      · rw [if_neg he, if_neg he]
    · rw [if_neg hc, if_neg hc]
  · rfl

/-- C7: joining an origin base URL with an absolute-path suffix gives the
same result whether or not the base ends in `/`, namely the base (without
the trailing slash) followed by the suffix — no double slash, no dropped
segment.  Stated for the join modelled from the spec's standard URL-join
semantics, over bases `http://host` with a slash-free host. -/
theorem claim7_url_join (host suffix r : List Char)
    (hh : '/' ∉ host) (hs : suffix = '/' :: r) :
    urlJoin ( str "http://" ++ host) suffix = some ( str "http://" ++ host ++ suffix)
    ∧ urlJoin ( str "http://" ++ host ++ ['/']) suffix =
      some ( str "http://" ++ host ++ suffix) := by
  subst hs
  constructor
  · rw [urlJoin, splitOnce_scheme_http host]
    dsimp only
    rw [(takeWhile_no_slash host hh).1]
    rfl
  · have e2 : str "http://" ++ host ++ ['/'] = str "http://" ++ (host ++ '/' :: []) :=
      List.append_assoc _ _ _
    rw [e2, urlJoin, splitOnce_scheme_http (host ++ '/' :: [])]
    dsimp only
    rw [(takeWhile_until_slash host hh []).1]
    rfl

/-- Witness for C7: the spec's example, `http://origin` and `http://origin/`
joined with `/read/scope/file.bin` both give
`http://origin/read/scope/file.bin`. -/
theorem claim7_witness :
    urlJoin ( str "http://origin") ( str "/read/scope/file.bin") =
      some ( str "http://origin/read/scope/file.bin")
    ∧ urlJoin ( str "http://origin/") ( str "/read/scope/file.bin") =
      some ( str "http://origin/read/scope/file.bin") := by
  have h := claim7_url_join ( str "origin") ( str "/read/scope/file.bin")
      ( str "read/scope/file.bin") (by decide) rfl
  exact ⟨h.1, h.2⟩

/-- C8 counterexample: when the credential directory itself cannot be read,
`from_condor` does not fail — it succeeds with an empty credential store
(the source prints to stderr and returns `Ok` with the empty list). -/
theorem claim8_counterexample :
    badDirWorld.readDir ( str "d") = .error ()
    ∧ from_condor badDirWorld = .ok [] := by
  exact ⟨rfl, rfl⟩

/-- C8 amended: startup credential loading fails with a fatal error when the
`_CONDOR_CREDS` variable is unset, when a directory entry is broken, or when
a credential file is unreadable or holds malformed JSON; when everything
loads, the store holds one credential per `.use` file (never partial).  But
when the credential directory itself is unreadable, loading succeeds with an
empty store instead of failing. -/
theorem claim8_amended (w : FsWorld) :
    (w.condorCreds = none →
      from_condor w = .error (.CredentialsError "_CONDOR_CREDS env variable not set"))
    ∧ (∀ d, w.condorCreds = some d → w.readDir d = .error () →
        from_condor w = .ok [])
    ∧ (∀ d entries, w.condorCreds = some d → w.readDir d = .ok entries →
        .error () ∈ entries →
        from_condor w = .error (.CredentialsError "Error reading _CONDOR_CREDS dir"))
    ∧ (∀ d entries f, w.condorCreds = some d → w.readDir d = .ok entries →
        (∀ x ∈ entries, x ≠ .error ()) → f ∈ usePaths entries →
        fileLoadsOk w f = false →
        (from_condor w = .error .IoError ∨ from_condor w = .error .JsonError))
    ∧ (∀ d entries, w.condorCreds = some d → w.readDir d = .ok entries →
        (∀ x ∈ entries, x ≠ .error ()) →
        (∀ f ∈ usePaths entries, fileLoadsOk w f = true) →
        ∃ creds, from_condor w = .ok creds ∧
          creds.length = (usePaths entries).length) := by
  refine ⟨?_, ?_, ?_, ?_, ?_⟩
  · intro hnone
    rw [from_condor, get_cred_dir, hnone]
  · intro d hsome hbad
    rw [from_condor, get_cred_dir, hsome]
    dsimp only
    rw [hbad]
    rfl
  · intro d entries hsome hok hmem
    rw [from_condor, get_cred_dir, hsome]
    dsimp only
    rw [hok]
    dsimp only
    rw [entriesLoop_error entries [] hmem]
  · intro d entries f hsome hok hintact hf hbad
    rw [from_condor, get_cred_dir, hsome]
    dsimp only
    rw [hok]
    dsimp only
    rw [entriesLoop_no_error entries [] hintact]
    dsimp only
    exact filesLoop_fails w _ [] f (by simpa using hf) hbad
  · intro d entries hsome hok hintact hall
    rw [from_condor, get_cred_dir, hsome]
    dsimp only
    rw [hok]
    dsimp only
    rw [entriesLoop_no_error entries [] hintact]
    dsimp only
    obtain ⟨creds, hcreds, hlen⟩ :=
      filesLoop_all_ok w (usePaths entries) [] (by simpa using hall)
    refine ⟨creds, ?_, by simp [hlen]⟩
    simpa using hcreds

/-- Witness for C8 amended: with `_CONDOR_CREDS` unset, loading fails with
the fatal missing-variable error. -/
theorem claim8_witness :
    from_condor noEnvWorld =
      .error (.CredentialsError "_CONDOR_CREDS env variable not set") :=
  (claim8_amended noEnvWorld).1 rfl

/-- C9: if credential selection fails, `execute` returns that error having
performed no local-file side effect: the target file is not created,
truncated or opened before a credential has been selected. -/
theorem claim9_no_file_effect (t : Transfer) (store : List Credential)
    (info : PelicanInfo) (now : ℚ) (pick : Nat) (w : World) (e : MyError)
    (h : get_correct_cred store t info now = .error e) :
    execute t store info now pick w = (.error e, []) := by
  rw [execute, h]

/-- Witness for C9: with an empty credential store, `execute` fails with the
selection error and the local-file event trace is empty. -/
theorem claim9_witness :
    execute ⟨ str "url://ns/a", str "f", Verb.Get⟩ []
        ⟨[ str "http://o"], str "url://ns"⟩ 0 0 benignWorld =
      (.error (.CredentialsError "No matching credentials for url"), []) :=
  claim9_no_file_effect _ _ _ _ _ _ _ rfl

/-- C10: a scope entry with no `:` never matches, never raises an error and
never affects which credential is selected — removing all such entries from
every stored credential commutes with `get_correct_cred`. -/
theorem claim10_malformed_scope_ignored (store : List Credential) (t : Transfer)
    (info : PelicanInfo) (now : ℚ) :
    Except.map stripMalformed (get_correct_cred store t info now) =
      get_correct_cred (store.map stripMalformed) t info now := by
  rcases hsp : splitOnce info.osdfPre t.url with _ | ⟨a, path⟩
  · rw [get_correct_cred, get_correct_cred, hsp]
    rfl
  · rw [get_correct_cred, get_correct_cred, hsp]
    dsimp only
    exact credScan_strip _ _ _ _ none
